import Mathlib

/-!
Verification of the krpc-client wire codec, stream registry, response
handling and code generator against their specification.

Bytes on the wire are modelled as natural numbers below 256; machine
integers are modelled as `Nat`/`Int` with explicit bounds.  The protobuf
primitive readers and writers (varints, zig-zag, fixed-width floats,
length-delimited blobs) follow the rust-protobuf `CodedInputStream` /
`CodedOutputStream` operations the source invokes.
-/

/-- The error enum of `src/error.rs`.  Note that it has exactly the four
variants `Connection`, `Client`, `Encoding` and `ProtobufError`; there is
no `Protocol` variant. -/
inductive RpcErr where
  | connection : RpcErr
  | client : RpcErr
  | encoding : String → RpcErr
  | protobuf : String → RpcErr
deriving DecidableEq, Repr

/-- rust-protobuf `write_raw_varint64`: little-endian base-128 with
continuation bits. -/
def write_raw_varint64 (n : Nat) : List Nat :=
  if n < 128 then [n] else (n % 128 + 128) :: write_raw_varint64 (n / 128)
termination_by n
decreasing_by exact Nat.div_lt_self (by omega) (by omega)

/-- rust-protobuf `read_raw_varint64`: accumulates 7-bit groups into a
64-bit register (shifted-out bits are discarded), rejecting varints of
more than 10 bytes and truncated buffers.  Returns the value and the
unconsumed suffix. -/
def read_raw_varint64_loop : List Nat → Nat → Nat → Except RpcErr (Nat × List Nat)
  | [], i, _ =>
    if i ≥ 10 then .error (.protobuf "incorrect varint") else .error (.protobuf "unexpected eof")
  | b :: rest, i, acc =>
    if i ≥ 10 then .error (.protobuf "incorrect varint")
    else
      if b < 128 then .ok ((acc + b % 128 * 2 ^ (7 * i)) % 2 ^ 64, rest)
      else read_raw_varint64_loop rest (i + 1) ((acc + b % 128 * 2 ^ (7 * i)) % 2 ^ 64)

def read_raw_varint64 (l : List Nat) : Except RpcErr (Nat × List Nat) :=
  read_raw_varint64_loop l 0 0

theorem read_raw_varint64_loop_length {l : List Nat} {i acc n : Nat} {rest : List Nat}
    (h : read_raw_varint64_loop l i acc = .ok (n, rest)) : rest.length < l.length := by
  induction l generalizing i acc n rest with
  | nil => simp only [read_raw_varint64_loop] at h; split at h <;> simp_all
  | cons b bs ih =>
    simp only [read_raw_varint64_loop] at h
    split at h
    · exact absurd h (by simp)
    · split at h
      · simp only [Except.ok.injEq, Prod.mk.injEq] at h
        simp [← h.2]
      · have := ih h
        simp only [List.length_cons]
        omega

theorem read_raw_varint64_length {l : List Nat} {n : Nat} {rest : List Nat}
    (h : read_raw_varint64 l = .ok (n, rest)) : rest.length < l.length :=
  read_raw_varint64_loop_length h

theorem write_raw_varint64_ne_nil (n : Nat) : write_raw_varint64 n ≠ [] := by
  rw [write_raw_varint64]
  split <;> simp

/-- Round trip of the varint codec for any value representable in 64 bits,
with an arbitrary unread suffix. -/
theorem read_write_raw_varint64_loop (n : Nat) : ∀ (i acc : Nat) (rest : List Nat),
    i ≤ 9 → acc < 2 ^ (7 * i) → acc + n * 2 ^ (7 * i) < 2 ^ 64 →
    read_raw_varint64_loop (write_raw_varint64 n ++ rest) i acc =
      .ok (acc + n * 2 ^ (7 * i), rest) := by
  induction n using Nat.strong_induction_on with
  | _ n ih =>
    intro i acc rest hi hacc hbound
    rw [write_raw_varint64]
    by_cases hn : n < 128
    · simp only [if_pos hn, List.cons_append, List.nil_append, read_raw_varint64_loop]
      rw [if_neg (show ¬ i ≥ 10 from by omega)]
      have h1 : n % 128 = n := Nat.mod_eq_of_lt hn
      rw [h1, Nat.mod_eq_of_lt hbound]
    · simp only [if_neg hn, List.cons_append, read_raw_varint64_loop]
      rw [if_neg (by omega), if_neg (by omega)]
      have hp : (0:Nat) < 2 ^ (7 * i) := Nat.pos_pow_of_pos _ (by omega)
      have hmod : (n % 128 + 128) % 128 = n % 128 := by omega
      have hsum : acc + n % 128 * 2 ^ (7 * i) < 2 ^ 64 := by
        have : n % 128 * 2 ^ (7 * i) ≤ n * 2 ^ (7 * i) :=
          Nat.mul_le_mul_right _ (Nat.mod_le _ _)
        omega
      rw [hmod, Nat.mod_eq_of_lt hsum]
      have hpow : 2 ^ (7 * (i + 1)) = 2 ^ (7 * i) * 128 := by
        rw [show 7 * (i + 1) = 7 * i + 7 from by ring, pow_add]
        norm_num
      have hi' : i + 1 ≤ 9 := by
        by_contra hcon
        have h9 : i = 9 := by omega
        subst h9
        have : 128 * 2 ^ (7 * 9) ≤ n * 2 ^ (7 * 9) :=
          Nat.mul_le_mul_right _ (by omega)
        have hb : 128 * 2 ^ (7 * 9) < 2 ^ 64 := by omega
        norm_num at hb
      have hacc' : acc + n % 128 * 2 ^ (7 * i) < 2 ^ (7 * (i + 1)) := by
        rw [hpow]
        have : n % 128 * 2 ^ (7 * i) ≤ 127 * 2 ^ (7 * i) :=
          Nat.mul_le_mul_right _ (by omega)
        nlinarith
      have hdecomp : n % 128 * 2 ^ (7 * i) + n / 128 * 2 ^ (7 * (i + 1)) = n * 2 ^ (7 * i) := by
        rw [hpow, show n / 128 * (2 ^ (7 * i) * 128) = 128 * (n / 128) * 2 ^ (7 * i) from by ring]
        rw [← Nat.add_mul]
        congr 1
        omega
      have := ih (n / 128) (Nat.div_lt_self (by omega) (by omega)) (i + 1)
        (acc + n % 128 * 2 ^ (7 * i)) rest hi' hacc' (by omega)
      rw [this]
      congr 2
      omega

theorem read_write_raw_varint64 (n : Nat) (h : n < 2 ^ 64) (rest : List Nat) :
    read_raw_varint64 (write_raw_varint64 n ++ rest) = .ok (n, rest) := by
  have := read_write_raw_varint64_loop n 0 0 rest (by omega) (by norm_num) (by simpa using h)
  simpa using this

/-! ## Primitive untagged readers and writers (`decode_untagged!` / `encode_untagged!`) -/

/-- rust-protobuf `read_raw_varint32`: a 64-bit varint truncated to 32 bits. -/
def read_raw_varint32 (l : List Nat) : Except RpcErr (Nat × List Nat) :=
  (read_raw_varint64 l).map fun p => (p.1 % 2 ^ 32, p.2)

/-- `write_bool_no_tag` writes the single byte 1 or 0. -/
def write_bool_no_tag (b : Bool) : List Nat := [if b then 1 else 0]

/-- `read_bool`: a varint, interpreted as `≠ 0`. -/
def read_bool (l : List Nat) : Except RpcErr Bool :=
  (read_raw_varint64 l).map fun p => p.1 != 0

def read_uint64 (l : List Nat) : Except RpcErr Nat :=
  (read_raw_varint64 l).map Prod.fst

def read_uint32 (l : List Nat) : Except RpcErr Nat :=
  (read_raw_varint32 l).map Prod.fst

/-- rust-protobuf `encode_zig_zag_32`: `(v << 1) ^ (v >> 31)` on `i32`. -/
def encode_zig_zag_32 (v : Int) : Nat :=
  if 0 ≤ v then 2 * v.toNat else 2 * (-v).toNat - 1

/-- rust-protobuf `decode_zig_zag_32`: `(u >> 1) ^ -(u & 1)` on `u32`. -/
def decode_zig_zag_32 (u : Nat) : Int :=
  if u % 2 = 0 then (u / 2 : Nat) else -((u / 2 : Nat) : Int) - 1

/-- `write_sint32_no_tag` = varint of the zig-zag encoding. -/
def write_sint32_no_tag (v : Int) : List Nat :=
  write_raw_varint64 (encode_zig_zag_32 v)

/-- `read_sint32` = zig-zag decoding of a 32-bit varint. -/
def read_sint32 (l : List Nat) : Except RpcErr Int :=
  (read_raw_varint32 l).map fun p => decode_zig_zag_32 p.1

/-- `write_float_no_tag`: the 32-bit pattern, little endian.  Floats are
modelled by their bit patterns; the codec never inspects them. -/
def write_fixed32 (n : Nat) : List Nat :=
  [n % 256, n / 256 % 256, n / 2 ^ 16 % 256, n / 2 ^ 24 % 256]

def read_fixed32 : List Nat → Except RpcErr Nat
  | b0 :: b1 :: b2 :: b3 :: _ => .ok (b0 + 256 * b1 + 2 ^ 16 * b2 + 2 ^ 24 * b3)
  | _ => .error (.protobuf "unexpected eof")

/-- `write_double_no_tag`: the 64-bit pattern, little endian. -/
def write_fixed64 (n : Nat) : List Nat :=
  [n % 256, n / 256 % 256, n / 2 ^ 16 % 256, n / 2 ^ 24 % 256,
   n / 2 ^ 32 % 256, n / 2 ^ 40 % 256, n / 2 ^ 48 % 256, n / 2 ^ 56 % 256]

def read_fixed64 : List Nat → Except RpcErr Nat
  | b0 :: b1 :: b2 :: b3 :: b4 :: b5 :: b6 :: b7 :: _ =>
    .ok (b0 + 256 * b1 + 2 ^ 16 * b2 + 2 ^ 24 * b3 +
      2 ^ 32 * b4 + 2 ^ 40 * b5 + 2 ^ 48 * b6 + 2 ^ 56 * b7)
  | _ => .error (.protobuf "unexpected eof")

/-- A length-prefixed blob: varint byte count, then the bytes. -/
def write_len_delimited (b : List Nat) : List Nat :=
  write_raw_varint64 b.length ++ b

/-- Read a length-prefixed blob, failing on a truncated buffer. -/
def read_len_delimited (l : List Nat) : Except RpcErr (List Nat × List Nat) :=
  match read_raw_varint64 l with
  | .error e => .error e
  | .ok (n, rest) =>
    if rest.length < n then .error (.protobuf "unexpected eof")
    else .ok (rest.take n, rest.drop n)

/-- The UTF-8 validity check `String::from_utf8` performs when
rust-protobuf's `read_string` turns the bytes into a `String`. -/
def utf8_validate : List Nat → Bool
  | [] => true
  | b :: rest =>
    if b < 0x80 then utf8_validate rest
    else if 0xC2 ≤ b ∧ b ≤ 0xDF then
      match rest with
      | c1 :: rest' => (0x80 ≤ c1 && c1 ≤ 0xBF) && utf8_validate rest'
      | _ => false
    else if b = 0xE0 then
      match rest with
      | c1 :: c2 :: rest' =>
        (0xA0 ≤ c1 && c1 ≤ 0xBF) && (0x80 ≤ c2 && c2 ≤ 0xBF) && utf8_validate rest'
      | _ => false
    else if (0xE1 ≤ b ∧ b ≤ 0xEC) ∨ b = 0xEE ∨ b = 0xEF then
      match rest with
      | c1 :: c2 :: rest' =>
        (0x80 ≤ c1 && c1 ≤ 0xBF) && (0x80 ≤ c2 && c2 ≤ 0xBF) && utf8_validate rest'
      | _ => false
    else if b = 0xED then
      match rest with
      | c1 :: c2 :: rest' =>
        (0x80 ≤ c1 && c1 ≤ 0x9F) && (0x80 ≤ c2 && c2 ≤ 0xBF) && utf8_validate rest'
      | _ => false
    else if b = 0xF0 then
      match rest with
      | c1 :: c2 :: c3 :: rest' =>
        (0x90 ≤ c1 && c1 ≤ 0xBF) && (0x80 ≤ c2 && c2 ≤ 0xBF) &&
          (0x80 ≤ c3 && c3 ≤ 0xBF) && utf8_validate rest'
      | _ => false
    else if 0xF1 ≤ b ∧ b ≤ 0xF3 then
      match rest with
      | c1 :: c2 :: c3 :: rest' =>
        (0x80 ≤ c1 && c1 ≤ 0xBF) && (0x80 ≤ c2 && c2 ≤ 0xBF) &&
          (0x80 ≤ c3 && c3 ≤ 0xBF) && utf8_validate rest'
      | _ => false
    else if b = 0xF4 then
      match rest with
      | c1 :: c2 :: c3 :: rest' =>
        (0x80 ≤ c1 && c1 ≤ 0x8F) && (0x80 ≤ c2 && c2 ≤ 0xBF) &&
          (0x80 ≤ c3 && c3 ≤ 0xBF) && utf8_validate rest'
      | _ => false
    else false
termination_by l => l.length
decreasing_by all_goals simp_wf <;> omega

/-- `write_string_no_tag`: length prefix plus the UTF-8 bytes (a model of
the Rust `String` is its byte content). -/
def write_string_no_tag (s : List Nat) : List Nat := write_len_delimited s

/-- `read_string`: length-prefixed bytes which must be valid UTF-8. -/
def read_string (l : List Nat) : Except RpcErr (List Nat) :=
  match read_len_delimited l with
  | .error e => .error e
  | .ok (s, _) => if utf8_validate s then .ok s else .error (.protobuf "invalid utf-8")

/-- `read_bytes`: a length-prefixed blob. -/
def read_bytes (l : List Nat) : Except RpcErr (List Nat) :=
  (read_len_delimited l).map Prod.fst

/-! Round trips for the primitive formats. -/

theorem read_write_len_delimited (b : List Nat) (h : b.length < 2 ^ 64) (rest : List Nat) :
    read_len_delimited (write_len_delimited b ++ rest) = .ok (b, rest) := by
  unfold read_len_delimited write_len_delimited
  rw [List.append_assoc, read_write_raw_varint64 _ h]
  simp

theorem read_write_bool (b : Bool) : read_bool (write_bool_no_tag b) = .ok b := by
  cases b <;> rfl

theorem read_write_uint64 (n : Nat) (h : n < 2 ^ 64) :
    read_uint64 (write_raw_varint64 n) = .ok n := by
  unfold read_uint64
  rw [show write_raw_varint64 n = write_raw_varint64 n ++ [] from by simp,
    read_write_raw_varint64 n h]
  rfl

theorem read_write_uint32 (n : Nat) (h : n < 2 ^ 32) :
    read_uint32 (write_raw_varint64 n) = .ok n := by
  unfold read_uint32 read_raw_varint32
  have h' : n < 4294967296 := by norm_num at h; omega
  rw [show write_raw_varint64 n = write_raw_varint64 n ++ [] from by simp,
    read_write_raw_varint64 n (by norm_num; omega)]
  simp [Except.map, Nat.mod_eq_of_lt h']

theorem decode_encode_zig_zag_32 (v : Int) (h1 : -2 ^ 31 ≤ v) (h2 : v < 2 ^ 31) :
    decode_zig_zag_32 (encode_zig_zag_32 v) = v := by
  unfold decode_zig_zag_32 encode_zig_zag_32
  by_cases hv : 0 ≤ v
  · rw [if_pos hv]
    have : (2 * v.toNat) % 2 = 0 := by omega
    rw [if_pos this]
    simp [Int.toNat_of_nonneg hv]
  · rw [if_neg hv]
    have hneg : 1 ≤ (-v).toNat := by omega
    have : (2 * (-v).toNat - 1) % 2 = 1 := by omega
    rw [if_neg (by omega)]
    have hdiv : (2 * (-v).toNat - 1) / 2 = (-v).toNat - 1 := by omega
    rw [hdiv]
    omega

theorem encode_zig_zag_32_lt (v : Int) (h1 : -2 ^ 31 ≤ v) (h2 : v < 2 ^ 31) :
    encode_zig_zag_32 v < 2 ^ 32 := by
  unfold encode_zig_zag_32
  split <;> omega

theorem read_write_sint32 (v : Int) (h1 : -2 ^ 31 ≤ v) (h2 : v < 2 ^ 31) :
    read_sint32 (write_sint32_no_tag v) = .ok v := by
  unfold read_sint32 read_raw_varint32 write_sint32_no_tag
  have hlt := encode_zig_zag_32_lt v h1 h2
  have hlt' : encode_zig_zag_32 v < 4294967296 := by norm_num at hlt; omega
  rw [show write_raw_varint64 (encode_zig_zag_32 v) =
      write_raw_varint64 (encode_zig_zag_32 v) ++ [] from by simp,
    read_write_raw_varint64 _ (by norm_num; omega)]
  simp [Except.map, Nat.mod_eq_of_lt hlt', decode_encode_zig_zag_32 v h1 h2]

theorem read_write_fixed32 (n : Nat) (h : n < 2 ^ 32) (rest : List Nat) :
    read_fixed32 (write_fixed32 n ++ rest) = .ok n := by
  simp only [write_fixed32, List.cons_append, List.nil_append, read_fixed32]
  congr 1
  omega

theorem read_write_fixed64 (n : Nat) (h : n < 2 ^ 64) (rest : List Nat) :
    read_fixed64 (write_fixed64 n ++ rest) = .ok n := by
  simp only [write_fixed64, List.cons_append, List.nil_append, read_fixed64]
  congr 1
  omega

theorem read_write_string (s : List Nat) (hlen : s.length < 2 ^ 64)
    (hval : utf8_validate s = true) :
    read_string (write_string_no_tag s) = .ok s := by
  unfold read_string write_string_no_tag
  rw [show write_len_delimited s = write_len_delimited s ++ [] from by simp,
    read_write_len_delimited s hlen]
  simp [hval]

theorem read_write_bytes (b : List Nat) (hlen : b.length < 2 ^ 64) :
    read_bytes (write_len_delimited b) = .ok b := by
  unfold read_bytes
  rw [show write_len_delimited b = write_len_delimited b ++ [] from by simp,
    read_write_len_delimited b hlen]
  rfl

/-! ## Framed protobuf messages (`Tuple`, `List`, `Set`, `Dictionary`)

The composite messages of `krpc.proto` all consist of length-delimited
fields: `Tuple`/`List`/`Set` have `repeated bytes items = 1`, `Dictionary`
has `repeated DictionaryEntry entries = 1` and `DictionaryEntry` has
`bytes key = 1; bytes value = 2`.  The writer and parser below model the
protobuf wire format for messages of that shape (length-delimited and
varint fields; proto3 writers omit empty singular `bytes` fields). -/

/-- One length-delimited field: varint tag (`field*8 + wiretype 2`),
varint byte count, payload. -/
def write_len_field (field : Nat) (payload : List Nat) : List Nat :=
  write_raw_varint64 (field * 8 + 2) ++ write_raw_varint64 payload.length ++ payload

/-- Read one field from the front of a message buffer.
`ok none` is the end of the message; `ok (some (none, rest))` is a skipped
varint field; `ok (some (some (field, payload), rest))` is a
length-delimited field. -/
def read_field (l : List Nat) :
    Except RpcErr (Option (Option (Nat × List Nat) × List Nat)) :=
  match l with
  | [] => .ok none
  | _ :: _ =>
    match read_raw_varint64 l with
    | .error e => .error e
    | .ok (tag, r1) =>
      if tag % 8 = 2 then
        match read_raw_varint64 r1 with
        | .error e => .error e
        | .ok (n, r2) =>
          if r2.length < n then .error (.protobuf "unexpected eof")
          else .ok (some (some (tag / 8, r2.take n), r2.drop n))
      else if tag % 8 = 0 then
        match read_raw_varint64 r1 with
        | .error e => .error e
        | .ok (_, r2) => .ok (some (none, r2))
      else .error (.protobuf "unexpected wire type")

theorem read_field_length {l : List Nat} {o : Option (Nat × List Nat)} {rest : List Nat}
    (h : read_field l = .ok (some (o, rest))) : rest.length < l.length := by
  cases l with
  | nil => simp [read_field] at h
  | cons a as =>
    simp only [read_field] at h
    cases h1 : read_raw_varint64 (a :: as) with
    | error e => rw [h1] at h; simp at h
    | ok p =>
      obtain ⟨tag, r1⟩ := p
      rw [h1] at h
      have hr1 := read_raw_varint64_length h1
      simp only at h
      split at h
      · cases h2 : read_raw_varint64 r1 with
        | error e => rw [h2] at h; simp at h
        | ok q =>
          obtain ⟨n, r2⟩ := q
          rw [h2] at h
          have hr2 := read_raw_varint64_length h2
          simp only at h
          split at h
          · simp at h
          · simp only [Except.ok.injEq, Option.some.injEq, Prod.mk.injEq] at h
            have he : rest = r2.drop n := h.2.symm
            subst he
            have := List.length_drop n r2
            simp only [List.length_cons] at *
            omega
      · split at h
        · cases h2 : read_raw_varint64 r1 with
          | error e => rw [h2] at h; simp at h
          | ok q =>
            obtain ⟨m, r2⟩ := q
            rw [h2] at h
            have hr2 := read_raw_varint64_length h2
            simp only [Except.ok.injEq, Option.some.injEq, Prod.mk.injEq] at h
            have he : rest = r2 := h.2.symm
            subst he
            simp only [List.length_cons] at *
            omega
        · simp at h

/-- Parse a message of length-delimited (and skipped varint) fields into
the ordered list of `(field number, payload)` pairs, the way the generated
protobuf parser does for the composite messages above. -/
def parse_len_fields (l : List Nat) : Except RpcErr (List (Nat × List Nat)) :=
  match h : read_field l with
  | .error e => .error e
  | .ok none => .ok []
  | .ok (some (o, rest)) =>
    match parse_len_fields rest with
    | .error e => .error e
    | .ok fs => .ok (o.elim fs (· :: fs))
termination_by l.length
decreasing_by exact read_field_length h

/-- `Tuple`/`List`/`Set` serialisation: every item as a length-delimited
occurrence of field 1 (repeated fields are written even when empty). -/
def write_repeated_items : List (List Nat) → List Nat
  | [] => []
  | b :: bs => write_len_field 1 b ++ write_repeated_items bs

/-- Protobuf parse of a `Tuple`/`List`/`Set` message: the payloads of
field 1, in wire order. -/
def parse_repeated_items (l : List Nat) : Except RpcErr (List (List Nat)) :=
  (parse_len_fields l).map
    (List.filterMap fun f => if f.1 = 1 then some f.2 else none)

theorem read_field_write_len_field (f : Nat) (payload rest : List Nat)
    (hf : f * 8 + 2 < 2 ^ 64) (hp : payload.length < 2 ^ 64) :
    read_field (write_len_field f payload ++ rest) =
      .ok (some (some (f, payload), rest)) := by
  obtain ⟨c, cs, hcons⟩ : ∃ c cs, write_raw_varint64 (f * 8 + 2) = c :: cs := by
    cases h : write_raw_varint64 (f * 8 + 2) with
    | nil => exact absurd h (write_raw_varint64_ne_nil _)
    | cons c cs => exact ⟨c, cs, rfl⟩
  have hbuf : write_len_field f payload ++ rest =
      c :: (cs ++ (write_raw_varint64 payload.length ++ (payload ++ rest))) := by
    unfold write_len_field
    rw [List.append_assoc, List.append_assoc, hcons]
    simp
  rw [hbuf]
  simp only [read_field]
  have h1 : read_raw_varint64
      (c :: (cs ++ (write_raw_varint64 payload.length ++ (payload ++ rest)))) =
      .ok (f * 8 + 2, write_raw_varint64 payload.length ++ (payload ++ rest)) := by
    rw [show c :: (cs ++ (write_raw_varint64 payload.length ++ (payload ++ rest))) =
        write_raw_varint64 (f * 8 + 2) ++ (write_raw_varint64 payload.length ++ (payload ++ rest))
      from by rw [hcons]; simp]
    exact read_write_raw_varint64 _ hf _
  simp only [h1]
  rw [if_pos (show (f * 8 + 2) % 8 = 2 from by omega)]
  simp only [read_write_raw_varint64 _ hp]
  rw [if_neg (show ¬ (payload ++ rest).length < payload.length from by simp)]
  rw [List.take_left, List.drop_left]
  have hdiv : (f * 8 + 2) / 8 = f := by omega
  rw [hdiv]

theorem parse_len_fields_nil : parse_len_fields [] = .ok [] := by
  rw [parse_len_fields]
  simp [read_field]

theorem parse_len_fields_write_len_field (f : Nat) (payload rest : List Nat)
    (hf : f * 8 + 2 < 2 ^ 64) (hp : payload.length < 2 ^ 64) :
    parse_len_fields (write_len_field f payload ++ rest) =
      (parse_len_fields rest).map ((f, payload) :: ·) := by
  rw [parse_len_fields]
  rw [read_field_write_len_field f payload rest hf hp]
  cases hrec : parse_len_fields rest <;> simp [hrec, Except.map]

theorem parse_write_repeated_items (items : List (List Nat))
    (h : ∀ b ∈ items, b.length < 2 ^ 64) :
    parse_len_fields (write_repeated_items items) = .ok (items.map ((1, ·))) := by
  induction items with
  | nil => simpa [write_repeated_items] using parse_len_fields_nil
  | cons b bs ih =>
    have hb : b.length < 2 ^ 64 := h b (by simp)
    have hbs : ∀ x ∈ bs, x.length < 2 ^ 64 := fun x hx => h x (by simp [hx])
    simp only [write_repeated_items]
    rw [parse_len_fields_write_len_field 1 b _ (by norm_num) hb]
    simp [ih hbs, Except.map]

theorem parse_repeated_items_write (items : List (List Nat))
    (h : ∀ b ∈ items, b.length < 2 ^ 64) :
    parse_repeated_items (write_repeated_items items) = .ok items := by
  unfold parse_repeated_items
  rw [parse_write_repeated_items items h]
  simp only [Except.map, List.filterMap_map]
  congr 1
  clear h
  induction items with
  | nil => rfl
  | cons b bs ih => simp [ih]

/-- `DictionaryEntry { bytes key = 1; bytes value = 2 }`, written in field
order; a proto3 writer omits an empty `bytes` field. -/
def write_dictionary_entry (k v : List Nat) : List Nat :=
  (if k.isEmpty then [] else write_len_field 1 k) ++
    (if v.isEmpty then [] else write_len_field 2 v)

/-- Parse a `DictionaryEntry`: last occurrence of each field wins, a
missing field is the empty default. -/
def parse_dictionary_entry (l : List Nat) : Except RpcErr (List Nat × List Nat) :=
  (parse_len_fields l).map fun fs =>
    ((fs.filterMap fun f => if f.1 = 1 then some f.2 else none).getLastD [],
     (fs.filterMap fun f => if f.1 = 2 then some f.2 else none).getLastD [])

/-- `Dictionary { repeated DictionaryEntry entries = 1 }`. -/
def write_dictionary_message (entries : List (List Nat × List Nat)) : List Nat :=
  write_repeated_items (entries.map fun e => write_dictionary_entry e.1 e.2)

/-- Protobuf parse of a `Dictionary` message: each field-1 payload parsed
as an entry, in wire order. -/
def parse_dictionary_message (l : List Nat) :
    Except RpcErr (List (List Nat × List Nat)) :=
  match parse_repeated_items l with
  | .error e => .error e
  | .ok items => items.mapM parse_dictionary_entry

theorem parse_write_dictionary_entry (k v : List Nat)
    (hk : k.length < 2 ^ 64) (hv : v.length < 2 ^ 64) :
    parse_dictionary_entry (write_dictionary_entry k v) = .ok (k, v) := by
  unfold parse_dictionary_entry write_dictionary_entry
  by_cases hke : k.isEmpty <;> by_cases hve : v.isEmpty
  · rw [if_pos hke, if_pos hve]
    simp only [List.nil_append]
    rw [parse_len_fields_nil]
    simp only [List.isEmpty_iff] at hke hve
    simp [Except.map, hke, hve]
  · rw [if_pos hke, if_neg hve]
    simp only [List.nil_append]
    rw [show write_len_field 2 v = write_len_field 2 v ++ [] from by simp,
      parse_len_fields_write_len_field 2 v [] (by norm_num) hv, parse_len_fields_nil]
    simp only [List.isEmpty_iff] at hke
    simp [Except.map, hke]
  · rw [if_neg hke, if_pos hve]
    simp only [List.append_nil]
    rw [show write_len_field 1 k = write_len_field 1 k ++ [] from by simp,
      parse_len_fields_write_len_field 1 k [] (by norm_num) hk, parse_len_fields_nil]
    simp only [List.isEmpty_iff] at hve
    simp [Except.map, hve]
  · rw [if_neg hke, if_neg hve]
    rw [parse_len_fields_write_len_field 1 k _ (by norm_num) hk,
      show write_len_field 2 v = write_len_field 2 v ++ [] from by simp,
      parse_len_fields_write_len_field 2 v [] (by norm_num) hv, parse_len_fields_nil]
    simp [Except.map]

theorem parse_write_dictionary_message (entries : List (List Nat × List Nat))
    (h : ∀ e ∈ entries, e.1.length < 2 ^ 64 ∧ e.2.length < 2 ^ 64)
    (hentry : ∀ e ∈ entries, (write_dictionary_entry e.1 e.2).length < 2 ^ 64) :
    parse_dictionary_message (write_dictionary_message entries) = .ok entries := by
  unfold parse_dictionary_message write_dictionary_message
  rw [parse_repeated_items_write _ (by
    intro b hb
    obtain ⟨e, he, rfl⟩ := List.mem_map.mp hb
    exact hentry e he)]
  induction entries with
  | nil => rfl
  | cons e es ih =>
    simp only [List.map_cons, List.mapM_cons]
    rw [parse_write_dictionary_entry e.1 e.2 (h e (by simp)).1 (h e (by simp)).2]
    have ihres := ih (fun x hx => h x (by simp [hx])) (fun x hx => hentry x (by simp [hx]))
    simp only [List.map] at ihres
    rw [ihres]
    rfl

/-! ## The universe of supported value kinds

`Ty` is the family of types for which the source defines `DecodeUntagged`
and `EncodeUntagged` instances; `Val` the corresponding values.  Floats
are carried as their IEEE-754 bit patterns (the codec moves the 4/8 raw
bytes and never interprets them); strings as their UTF-8 byte content;
class handles as their `u64` object id; enumeration values as the variant
index (the generated `rpc_enum!` discriminants are `0..n-1`). -/

inductive Ty where
  | bool | sint32 | uint32 | uint64 | float | double | string | bytes
  | tuple : List Ty → Ty
  | list : Ty → Ty
  | set : Ty → Ty
  | dictionary : Ty → Ty → Ty
  | enumeration : Nat → Ty
  | object : Ty

inductive Val where
  | bool : Bool → Val
  | sint32 : Int → Val
  | uint32 : Nat → Val
  | uint64 : Nat → Val
  | float : Nat → Val
  | double : Nat → Val
  | string : List Nat → Val
  | bytes : List Nat → Val
  | tuple : List Val → Val
  | list : List Val → Val
  | set : List Val → Val
  | dictionary : List (Val × Val) → Val
  | enumeration : Nat → Val
  | object : Nat → Val

mutual
/-- Structural equality on values: the model of `Eq` on the decoded Rust
types (`HashSet`/`HashMap` membership tests). -/
def valBeq : Val → Val → Bool
  | .bool a, .bool b => a == b
  | .sint32 a, .sint32 b => a == b
  | .uint32 a, .uint32 b => a == b
  | .uint64 a, .uint64 b => a == b
  | .float a, .float b => a == b
  | .double a, .double b => a == b
  | .string a, .string b => a == b
  | .bytes a, .bytes b => a == b
  | .tuple a, .tuple b => valListBeq a b
  | .list a, .list b => valListBeq a b
  | .set a, .set b => valListBeq a b
  | .dictionary a, .dictionary b => valEntriesBeq a b
  | .enumeration a, .enumeration b => a == b
  | .object a, .object b => a == b
  | _, _ => false

def valListBeq : List Val → List Val → Bool
  | [], [] => true
  | a :: as, b :: bs => valBeq a b && valListBeq as bs
  | _, _ => false

def valEntriesBeq : List (Val × Val) → List (Val × Val) → Bool
  | [], [] => true
  | (k, v) :: as, (k', v') :: bs => valBeq k k' && valBeq v v' && valEntriesBeq as bs
  | _, _ => false
end

/-- `HashSet::insert` on the model: append if not already present. -/
def hash_set_insert (s : List Val) (x : Val) : List Val :=
  if s.any (fun y => valBeq y x) then s else s ++ [x]

/-- `HashMap::insert` on the model: replace the binding of an existing
key, otherwise append. -/
def hash_map_insert : List (Val × Val) → Val → Val → List (Val × Val)
  | [], k, v => [(k, v)]
  | (k', v') :: rest, k, v =>
    if valBeq k' k then (k, v) :: rest else (k', v') :: hash_map_insert rest k v

/-- No element of `s` is `valBeq`-equal to `x`. -/
def fresh_in (x : Val) (s : List Val) : Bool := s.all (fun y => !(valBeq x y))

def pairwise_distinct : List Val → Bool
  | [] => true
  | v :: vs => fresh_in v vs && pairwise_distinct vs

def pairwise_distinct_keys : List (Val × Val) → Bool
  | [] => true
  | (k, _) :: ps => fresh_in k (ps.map Prod.fst) && pairwise_distinct_keys ps

mutual
/-- Well-typedness of a model value at a wire type.  Bounds state Rust
representability (`u32`/`u64`/`i32` ranges, bytes < 256); `string`
requires valid UTF-8 (a Rust `String` invariant); `set` elements and
`dictionary` keys are pairwise distinct (`HashSet`/`HashMap` invariants);
tuples follow the source's arity-2..4 instances. -/
def has_ty : Val → Ty → Bool
  | .bool _, .bool => true
  | .sint32 v, .sint32 => decide (-2 ^ 31 ≤ v) && decide (v < 2 ^ 31)
  | .uint32 n, .uint32 => decide (n < 2 ^ 32)
  | .uint64 n, .uint64 => decide (n < 2 ^ 64)
  | .float n, .float => decide (n < 2 ^ 32)
  | .double n, .double => decide (n < 2 ^ 64)
  | .string s, .string => utf8_validate s
  | .bytes b, .bytes => b.all (fun x => decide (x < 256))
  | .tuple vs, .tuple ts =>
    decide (2 ≤ ts.length) && decide (ts.length ≤ 4) && has_ty_zip vs ts
  | .list vs, .list t => has_ty_all vs t
  | .set vs, .set t => has_ty_all vs t && pairwise_distinct vs
  | .dictionary ps, .dictionary kt vt =>
    has_ty_entries ps kt vt && pairwise_distinct_keys ps
  | .enumeration i, .enumeration n => decide (i < n) && decide (n ≤ 2 ^ 31)
  | .object id, .object => decide (id < 2 ^ 64)
  | _, _ => false

def has_ty_all : List Val → Ty → Bool
  | [], _ => true
  | v :: vs, t => has_ty v t && has_ty_all vs t

def has_ty_zip : List Val → List Ty → Bool
  | [], [] => true
  | v :: vs, t :: ts => has_ty v t && has_ty_zip vs ts
  | _, _ => false

def has_ty_entries : List (Val × Val) → Ty → Ty → Bool
  | [], _, _ => true
  | (k, v) :: ps, kt, vt => has_ty k kt && has_ty v vt && has_ty_entries ps kt vt
end

mutual
/-- The untagged encoders of `src/lib.rs` (`encode_untagged!`, the manual
`String` instance, the tuple/`Vec`/`HashSet`/`HashMap` instances,
`rpc_enum!` as `i32`, `rpc_object!` as `u64`).  `src` defines no
`EncodeUntagged` for `Vec<u8>`; the `bytes` arm is modelled from the
spec: bytes → length-prefixed raw. -/
def encode_untagged : Val → List Nat
  | .bool b => write_bool_no_tag b
  | .sint32 v => write_sint32_no_tag v
  | .uint32 n => write_raw_varint64 n
  | .uint64 n => write_raw_varint64 n
  | .float n => write_fixed32 n
  | .double n => write_fixed64 n
  | .string s => write_string_no_tag s
  | .bytes b => write_len_delimited b
  | .tuple vs => write_repeated_items (encode_items vs)
  | .list vs => write_repeated_items (encode_items vs)
  | .set vs => write_repeated_items (encode_items vs)
  | .dictionary ps => write_repeated_items (encode_entries ps)
  | .enumeration i => write_sint32_no_tag i
  | .object id => write_raw_varint64 id

def encode_items : List Val → List (List Nat)
  | [] => []
  | v :: vs => encode_untagged v :: encode_items vs

def encode_entries : List (Val × Val) → List (List Nat)
  | [] => []
  | (k, v) :: ps =>
    write_dictionary_entry (encode_untagged k) (encode_untagged v) :: encode_entries ps
end

mutual
/-- The untagged decoders of `src/lib.rs`: primitives via the
rust-protobuf readers; tuples via `Tuple` with an `Encoding` error on a
missing component; `Vec` via `List` in wire order; `HashSet` via `Set`
with per-item insertion; `HashMap` via `Dictionary` with per-entry
insertion; `rpc_enum!` matching the `i32` against the discriminants
`0..n-1` with an `Encoding` error otherwise; `rpc_object!` via `u64`. -/
def decode_untagged : Ty → List Nat → Except RpcErr Val
  | .bool, b =>
    match read_bool b with
    | .error e => .error e
    | .ok x => .ok (.bool x)
  | .sint32, b =>
    match read_sint32 b with
    | .error e => .error e
    | .ok x => .ok (.sint32 x)
  | .uint32, b =>
    match read_uint32 b with
    | .error e => .error e
    | .ok x => .ok (.uint32 x)
  | .uint64, b =>
    match read_uint64 b with
    | .error e => .error e
    | .ok x => .ok (.uint64 x)
  | .float, b =>
    match read_fixed32 b with
    | .error e => .error e
    | .ok x => .ok (.float x)
  | .double, b =>
    match read_fixed64 b with
    | .error e => .error e
    | .ok x => .ok (.double x)
  | .string, b =>
    match read_string b with
    | .error e => .error e
    | .ok x => .ok (.string x)
  | .bytes, b =>
    match read_bytes b with
    | .error e => .error e
    | .ok x => .ok (.bytes x)
  | .tuple ts, b =>
    match parse_repeated_items b with
    | .error e => .error e
    | .ok items =>
      match decode_tuple_components ts items with
      | .error e => .error e
      | .ok vs => .ok (.tuple vs)
  | .list t, b =>
    match parse_repeated_items b with
    | .error e => .error e
    | .ok items =>
      match decode_list_items t items with
      | .error e => .error e
      | .ok vs => .ok (.list vs)
  | .set t, b =>
    match parse_repeated_items b with
    | .error e => .error e
    | .ok items =>
      match decode_set_items t items [] with
      | .error e => .error e
      | .ok vs => .ok (.set vs)
  | .dictionary kt vt, b =>
    match parse_dictionary_message b with
    | .error e => .error e
    | .ok entries =>
      match decode_map_entries kt vt entries [] with
      | .error e => .error e
      | .ok ps => .ok (.dictionary ps)
  | .enumeration n, b =>
    match read_sint32 b with
    | .error e => .error e
    | .ok j =>
      if 0 ≤ j ∧ j < n then .ok (.enumeration j.toNat)
      else .error (.encoding "invalid enum variant")
  | .object, b =>
    match read_uint64 b with
    | .error e => .error e
    | .ok x => .ok (.object x)
termination_by t _ => (sizeOf t, 0)
decreasing_by all_goals (simp_wf; omega)

def decode_tuple_components : List Ty → List (List Nat) → Except RpcErr (List Val)
  | [], _ => .ok []
  | _ :: _, [] => .error (.encoding "tuple element out of range")
  | t :: ts, b :: bs =>
    match decode_untagged t b with
    | .error e => .error e
    | .ok v =>
      match decode_tuple_components ts bs with
      | .error e => .error e
      | .ok vs => .ok (v :: vs)
termination_by ts bs => (sizeOf ts, bs.length + 1)
decreasing_by all_goals (simp_wf; omega)

def decode_list_items : Ty → List (List Nat) → Except RpcErr (List Val)
  | _, [] => .ok []
  | t, b :: bs =>
    match decode_untagged t b with
    | .error e => .error e
    | .ok v =>
      match decode_list_items t bs with
      | .error e => .error e
      | .ok vs => .ok (v :: vs)
termination_by t bs => (sizeOf t, bs.length + 1)
decreasing_by all_goals (simp_wf; omega)

def decode_set_items : Ty → List (List Nat) → List Val → Except RpcErr (List Val)
  | _, [], acc => .ok acc
  | t, b :: bs, acc =>
    match decode_untagged t b with
    | .error e => .error e
    | .ok v => decode_set_items t bs (hash_set_insert acc v)
termination_by t bs _ => (sizeOf t, bs.length + 1)
decreasing_by all_goals (simp_wf; omega)

def decode_map_entries :
    Ty → Ty → List (List Nat × List Nat) → List (Val × Val) →
      Except RpcErr (List (Val × Val))
  | _, _, [], acc => .ok acc
  | kt, vt, (kb, vb) :: es, acc =>
    match decode_untagged kt kb with
    | .error e => .error e
    | .ok k =>
      match decode_untagged vt vb with
      | .error e => .error e
      | .ok v => decode_map_entries kt vt es (hash_map_insert acc k v)
termination_by kt vt es _ => (sizeOf kt + sizeOf vt, es.length + 1)
decreasing_by all_goals (simp_wf; omega)
end

/-! ## Round trip of the composite codec -/

theorem encode_items_eq_map (vs : List Val) :
    encode_items vs = vs.map encode_untagged := by
  induction vs with
  | nil => rfl
  | cons v vs ih => simp [encode_items, ih]

theorem encode_entries_eq_map (ps : List (Val × Val)) :
    encode_entries ps =
      ps.map fun e => write_dictionary_entry (encode_untagged e.1) (encode_untagged e.2) := by
  induction ps with
  | nil => rfl
  | cons e es ih => obtain ⟨k, v⟩ := e; simp [encode_entries, ih]

theorem write_len_field_length_le (f : Nat) (p : List Nat) :
    p.length ≤ (write_len_field f p).length := by
  simp only [write_len_field, List.length_append]
  omega

theorem mem_write_repeated_items_length {b : List Nat} {items : List (List Nat)}
    (h : b ∈ items) : b.length ≤ (write_repeated_items items).length := by
  induction items with
  | nil => simp at h
  | cons x xs ih =>
    simp only [write_repeated_items, List.length_append]
    rcases List.mem_cons.mp h with rfl | hmem
    · have := write_len_field_length_le 1 b
      omega
    · have := ih hmem
      omega

theorem write_dictionary_entry_key_le (k v : List Nat) :
    k.length ≤ (write_dictionary_entry k v).length := by
  unfold write_dictionary_entry
  by_cases hk : k.isEmpty
  · simp only [List.isEmpty_iff] at hk
    simp [hk]
  · rw [if_neg hk]
    have := write_len_field_length_le 1 k
    simp only [List.length_append]
    omega

theorem write_dictionary_entry_value_le (k v : List Nat) :
    v.length ≤ (write_dictionary_entry k v).length := by
  unfold write_dictionary_entry
  by_cases hv : v.isEmpty
  · simp only [List.isEmpty_iff] at hv
    simp [hv]
  · rw [if_neg hv]
    have := write_len_field_length_le 2 v
    simp only [List.length_append]
    omega

theorem pairwise_distinct_sound {l : List Val} (h : pairwise_distinct l = true) :
    l.Pairwise (fun a b => valBeq a b = false) := by
  induction l with
  | nil => exact List.Pairwise.nil
  | cons v vs ih =>
    simp only [pairwise_distinct, Bool.and_eq_true] at h
    refine List.Pairwise.cons ?_ (ih h.2)
    intro y hy
    have := h.1
    simp only [fresh_in, List.all_eq_true] at this
    simpa using this y hy

theorem pairwise_distinct_keys_sound {ps : List (Val × Val)}
    (h : pairwise_distinct_keys ps = true) :
    (ps.map Prod.fst).Pairwise (fun a b => valBeq a b = false) := by
  induction ps with
  | nil => exact List.Pairwise.nil
  | cons e es ih =>
    obtain ⟨k, v⟩ := e
    simp only [pairwise_distinct_keys, Bool.and_eq_true] at h
    refine List.Pairwise.cons ?_ (ih h.2)
    intro y hy
    have := h.1
    simp only [fresh_in, List.all_eq_true] at this
    exact by simpa using this y hy

theorem hash_set_insert_fresh {s : List Val} {x : Val}
    (h : ∀ y ∈ s, valBeq y x = false) : hash_set_insert s x = s ++ [x] := by
  unfold hash_set_insert
  have hs : s.any (fun y => valBeq y x) = false := by
    simp only [List.any_eq_false]
    intro y hy
    simp [h y hy]
  simp [hs]

theorem hash_map_insert_fresh {m : List (Val × Val)} {k v : Val}
    (h : ∀ e ∈ m, valBeq e.1 k = false) : hash_map_insert m k v = m ++ [(k, v)] := by
  induction m with
  | nil => rfl
  | cons e es ih =>
    obtain ⟨k', v'⟩ := e
    simp only [hash_map_insert]
    rw [if_neg (by simp [h (k', v') (by simp)]), ih (fun x hx => h x (by simp [hx]))]
    simp

theorem has_ty_all_mem {vs : List Val} {t : Ty} (h : has_ty_all vs t = true)
    {x : Val} (hx : x ∈ vs) : has_ty x t = true := by
  induction vs with
  | nil => simp at hx
  | cons v vs ih =>
    simp only [has_ty_all, Bool.and_eq_true] at h
    rcases List.mem_cons.mp hx with rfl | hmem
    · exact h.1
    · exact ih h.2 hmem

theorem has_ty_zip_length {vs : List Val} {ts : List Ty}
    (h : has_ty_zip vs ts = true) : vs.length = ts.length := by
  induction vs generalizing ts with
  | nil => cases ts with
    | nil => rfl
    | cons t ts => simp [has_ty_zip] at h
  | cons v vs ih =>
    cases ts with
    | nil => simp [has_ty_zip] at h
    | cons t ts =>
      simp only [has_ty_zip, Bool.and_eq_true] at h
      simp [ih h.2]

theorem has_ty_zip_mem {vs : List Val} {ts : List Ty}
    (h : has_ty_zip vs ts = true) {x : Val} {t : Ty}
    (hx : (x, t) ∈ vs.zip ts) : has_ty x t = true := by
  induction vs generalizing ts with
  | nil => simp at hx
  | cons v vs ih =>
    cases ts with
    | nil => simp at hx
    | cons t' ts =>
      simp only [has_ty_zip, Bool.and_eq_true] at h
      simp only [List.zip_cons_cons, List.mem_cons, Prod.mk.injEq] at hx
      rcases hx with ⟨rfl, rfl⟩ | hmem
      · exact h.1
      · exact ih h.2 hmem

theorem has_ty_entries_mem {ps : List (Val × Val)} {kt vt : Ty}
    (h : has_ty_entries ps kt vt = true) {e : Val × Val} (he : e ∈ ps) :
    has_ty e.1 kt = true ∧ has_ty e.2 vt = true := by
  induction ps with
  | nil => simp at he
  | cons p ps ih =>
    obtain ⟨k, v⟩ := p
    simp only [has_ty_entries, Bool.and_eq_true] at h
    rcases List.mem_cons.mp he with rfl | hmem
    · exact ⟨h.1.1, h.1.2⟩
    · exact ih h.2 hmem

theorem decode_list_items_of_elems (t : Ty) (vs : List Val)
    (h : ∀ x ∈ vs, decode_untagged t (encode_untagged x) = .ok x) :
    decode_list_items t (encode_items vs) = .ok vs := by
  induction vs with
  | nil => simp [encode_items, decode_list_items]
  | cons v vs ih =>
    simp only [encode_items, decode_list_items]
    rw [h v (by simp), ih (fun x hx => h x (by simp [hx]))]

theorem decode_set_items_of_elems (t : Ty) : ∀ (vs acc : List Val),
    (∀ x ∈ vs, decode_untagged t (encode_untagged x) = .ok x) →
    (acc ++ vs).Pairwise (fun a b => valBeq a b = false) →
    decode_set_items t (encode_items vs) acc = .ok (acc ++ vs) := by
  intro vs
  induction vs with
  | nil => intro acc _ _; simp [encode_items, decode_set_items]
  | cons v vs ih =>
    intro acc h hp
    simp only [encode_items, decode_set_items, h v (by simp)]
    have hfresh : ∀ y ∈ acc, valBeq y v = false := by
      intro y hy
      have := (List.pairwise_append.mp hp).2.2
      exact this y hy v (by simp)
    rw [hash_set_insert_fresh hfresh]
    have hp' : ((acc ++ [v]) ++ vs).Pairwise (fun a b => valBeq a b = false) := by
      rw [List.append_assoc]
      simpa using hp
    rw [ih (acc ++ [v]) (fun x hx => h x (by simp [hx])) hp']
    simp

theorem decode_map_entries_of_elems (kt vt : Ty) : ∀ (ps acc : List (Val × Val)),
    (∀ e ∈ ps, decode_untagged kt (encode_untagged e.1) = .ok e.1 ∧
      decode_untagged vt (encode_untagged e.2) = .ok e.2) →
    ((acc ++ ps).map Prod.fst).Pairwise (fun a b => valBeq a b = false) →
    decode_map_entries kt vt (ps.map fun e => (encode_untagged e.1, encode_untagged e.2)) acc =
      .ok (acc ++ ps) := by
  intro ps
  induction ps with
  | nil => intro acc _ _; simp [decode_map_entries]
  | cons e es ih =>
    obtain ⟨k, v⟩ := e
    intro acc h hp
    simp only [List.map_cons, decode_map_entries, (h (k, v) (by simp)).1,
      (h (k, v) (by simp)).2]
    have hfresh : ∀ e ∈ acc, valBeq e.1 k = false := by
      intro e he
      have := (List.pairwise_append.mp (by simpa using hp : (acc.map Prod.fst ++
        (k :: es.map Prod.fst)).Pairwise (fun a b => valBeq a b = false))).2.2
      exact this e.1 (List.mem_map_of_mem _ he) k (by simp)
    rw [hash_map_insert_fresh hfresh]
    have hp' : (((acc ++ [(k, v)]) ++ es).map Prod.fst).Pairwise
        (fun a b => valBeq a b = false) := by
      rw [List.append_assoc]
      simpa using hp
    rw [ih (acc ++ [(k, v)]) (fun x hx => h x (by simp [hx])) hp']
    simp

theorem decode_tuple_components_of_elems : ∀ (ts : List Ty) (vs : List Val),
    vs.length = ts.length →
    (∀ x t', (x, t') ∈ vs.zip ts → decode_untagged t' (encode_untagged x) = .ok x) →
    decode_tuple_components ts (encode_items vs) = .ok vs := by
  intro ts
  induction ts with
  | nil =>
    intro vs hlen _
    cases vs with
    | nil => simp [encode_items, decode_tuple_components]
    | cons v vs => simp at hlen
  | cons t ts ih =>
    intro vs hlen h
    cases vs with
    | nil => simp at hlen
    | cons v vs =>
      simp only [encode_items, decode_tuple_components, h v t (by simp),
        ih vs (by simpa using hlen) (fun x t' hm => h x t' (by simp [hm]))]

theorem mapM_parse_encode_entries (ps : List (Val × Val))
    (h : ∀ e ∈ ps, (encode_untagged e.1).length < 2 ^ 64 ∧
      (encode_untagged e.2).length < 2 ^ 64) :
    (encode_entries ps).mapM parse_dictionary_entry =
      .ok (ps.map fun e => (encode_untagged e.1, encode_untagged e.2)) := by
  induction ps with
  | nil => rfl
  | cons e es ih =>
    obtain ⟨k, v⟩ := e
    simp only [encode_entries, List.mapM_cons]
    rw [parse_write_dictionary_entry _ _ (h (k, v) (by simp)).1 (h (k, v) (by simp)).2]
    have := ih (fun x hx => h x (by simp [hx]))
    rw [this]
    rfl

theorem ty_sizeOf_pos (t : Ty) : 0 < sizeOf t := by
  cases t <;> simp_arith

theorem decode_encode_untagged_main : ∀ (N : Nat) (t : Ty), sizeOf t ≤ N →
    ∀ (v : Val), has_ty v t = true → (encode_untagged v).length < 2 ^ 64 →
    decode_untagged t (encode_untagged v) = .ok v := by
  intro N
  induction N with
  | zero =>
    intro t htN
    exact absurd htN (by have := ty_sizeOf_pos t; omega)
  | succ N ihN =>
    intro t htN v hty hlen
    cases t with
    | bool =>
      cases v <;> try (simp only [has_ty] at hty) <;> try (exact (Bool.false_ne_true hty).elim)
      rename_i b
      simp [decode_untagged, encode_untagged, read_write_bool]
    | sint32 =>
      cases v <;> try (simp only [has_ty] at hty) <;> try (exact (Bool.false_ne_true hty).elim)
      rename_i x
      simp only [Bool.and_eq_true, decide_eq_true_eq] at hty
      simp [decode_untagged, encode_untagged, read_write_sint32 x hty.1 hty.2]
    | uint32 =>
      cases v <;> try (simp only [has_ty] at hty) <;> try (exact (Bool.false_ne_true hty).elim)
      rename_i x
      simp only [decide_eq_true_eq] at hty
      simp [decode_untagged, encode_untagged, read_write_uint32 x hty]
    | uint64 =>
      cases v <;> try (simp only [has_ty] at hty) <;> try (exact (Bool.false_ne_true hty).elim)
      rename_i x
      simp only [decide_eq_true_eq] at hty
      simp [decode_untagged, encode_untagged, read_write_uint64 x hty]
    | float =>
      cases v <;> try (simp only [has_ty] at hty) <;> try (exact (Bool.false_ne_true hty).elim)
      rename_i x
      simp only [decide_eq_true_eq] at hty
      have hr := read_write_fixed32 x hty []
      rw [List.append_nil] at hr
      simp [decode_untagged, encode_untagged, hr]
    | double =>
      cases v <;> try (simp only [has_ty] at hty) <;> try (exact (Bool.false_ne_true hty).elim)
      rename_i x
      simp only [decide_eq_true_eq] at hty
      have hr := read_write_fixed64 x hty []
      rw [List.append_nil] at hr
      simp [decode_untagged, encode_untagged, hr]
    | string =>
      cases v <;> try (simp only [has_ty] at hty) <;> try (exact (Bool.false_ne_true hty).elim)
      rename_i s
      simp only [encode_untagged, write_string_no_tag] at hlen
      have hslen : s.length < 2 ^ 64 := by
        have : s.length ≤ (write_len_delimited s).length := by
          simp only [write_len_delimited, List.length_append]
          omega
        omega
      simp [decode_untagged, encode_untagged, read_write_string s hslen hty]
    | bytes =>
      cases v <;> try (simp only [has_ty] at hty) <;> try (exact (Bool.false_ne_true hty).elim)
      rename_i b
      simp only [encode_untagged] at hlen
      have hblen : b.length < 2 ^ 64 := by
        have : b.length ≤ (write_len_delimited b).length := by
          simp only [write_len_delimited, List.length_append]
          omega
        omega
      simp [decode_untagged, encode_untagged, read_write_bytes b hblen]
    | enumeration n =>
      cases v <;> try (simp only [has_ty] at hty) <;> try (exact (Bool.false_ne_true hty).elim)
      rename_i i
      simp only [Bool.and_eq_true, decide_eq_true_eq] at hty
      have hlow : (-2 ^ 31 : Int) ≤ (i : Int) := le_trans (by norm_num) (Int.natCast_nonneg i)
      have hhigh : (i : Int) < 2 ^ 31 := by
        have : (i : Int) < (2 ^ 31 : Nat) := by exact_mod_cast lt_of_lt_of_le hty.1 hty.2
        simpa using this
      simp only [decode_untagged, encode_untagged, read_write_sint32 (i : Int) hlow hhigh]
      rw [if_pos ⟨by positivity, by exact_mod_cast hty.1⟩]
      simp
    | object =>
      cases v <;> try (simp only [has_ty] at hty) <;> try (exact (Bool.false_ne_true hty).elim)
      rename_i x
      simp only [decide_eq_true_eq] at hty
      simp [decode_untagged, encode_untagged, read_write_uint64 x hty]
    | tuple ts =>
      cases v <;> try (simp only [has_ty] at hty) <;> try (exact (Bool.false_ne_true hty).elim)
      rename_i vs
      simp only [Bool.and_eq_true, decide_eq_true_eq] at hty
      obtain ⟨⟨h2, h4⟩, hzip⟩ := hty
      simp only [encode_untagged] at hlen ⊢
      have hbound : ∀ b ∈ encode_items vs, b.length < 2 ^ 64 := fun b hb =>
        lt_of_le_of_lt (mem_write_repeated_items_length hb) hlen
      have helem : ∀ x t', (x, t') ∈ vs.zip ts →
          decode_untagged t' (encode_untagged x) = .ok x := by
        intro x t' hmem
        have hx := List.mem_zip hmem
        have hst : sizeOf t' ≤ N := by
          have h1 := List.sizeOf_lt_of_mem hx.2
          have h2 : sizeOf (Ty.tuple ts) = 1 + sizeOf ts := by simp
          omega
        refine ihN t' hst x (has_ty_zip_mem hzip hmem) ?_
        refine lt_of_le_of_lt (mem_write_repeated_items_length ?_) hlen
        rw [encode_items_eq_map]
        exact List.mem_map_of_mem _ hx.1
      simp only [decode_untagged, parse_repeated_items_write _ hbound,
        decode_tuple_components_of_elems ts vs (has_ty_zip_length hzip) helem]
    | list t' =>
      cases v <;> try (simp only [has_ty] at hty) <;> try (exact (Bool.false_ne_true hty).elim)
      rename_i vs
      simp only [encode_untagged] at hlen ⊢
      have hbound : ∀ b ∈ encode_items vs, b.length < 2 ^ 64 := fun b hb =>
        lt_of_le_of_lt (mem_write_repeated_items_length hb) hlen
      have hst : sizeOf t' ≤ N := by
        have : sizeOf (Ty.list t') = 1 + sizeOf t' := by simp
        omega
      have helem : ∀ x ∈ vs, decode_untagged t' (encode_untagged x) = .ok x := by
        intro x hx
        refine ihN t' hst x (has_ty_all_mem hty hx) ?_
        refine lt_of_le_of_lt (mem_write_repeated_items_length ?_) hlen
        rw [encode_items_eq_map]
        exact List.mem_map_of_mem _ hx
      simp only [decode_untagged, parse_repeated_items_write _ hbound,
        decode_list_items_of_elems t' vs helem]
    | set t' =>
      cases v <;> try (simp only [has_ty] at hty) <;> try (exact (Bool.false_ne_true hty).elim)
      rename_i vs
      simp only [Bool.and_eq_true] at hty
      simp only [encode_untagged] at hlen ⊢
      have hbound : ∀ b ∈ encode_items vs, b.length < 2 ^ 64 := fun b hb =>
        lt_of_le_of_lt (mem_write_repeated_items_length hb) hlen
      have hst : sizeOf t' ≤ N := by
        have : sizeOf (Ty.set t') = 1 + sizeOf t' := by simp
        omega
      have helem : ∀ x ∈ vs, decode_untagged t' (encode_untagged x) = .ok x := by
        intro x hx
        refine ihN t' hst x (has_ty_all_mem hty.1 hx) ?_
        refine lt_of_le_of_lt (mem_write_repeated_items_length ?_) hlen
        rw [encode_items_eq_map]
        exact List.mem_map_of_mem _ hx
      simp only [decode_untagged, parse_repeated_items_write _ hbound,
        decode_set_items_of_elems t' vs [] helem
          (by simpa using pairwise_distinct_sound hty.2)]
      simp
    | dictionary kt vt =>
      cases v <;> try (simp only [has_ty] at hty) <;> try (exact (Bool.false_ne_true hty).elim)
      rename_i ps
      simp only [Bool.and_eq_true] at hty
      simp only [encode_untagged] at hlen ⊢
      have hmem_entry : ∀ e ∈ ps,
          write_dictionary_entry (encode_untagged e.1) (encode_untagged e.2) ∈
            encode_entries ps := by
        intro e he
        rw [encode_entries_eq_map]
        exact List.mem_map_of_mem _ he
      have hbound : ∀ b ∈ encode_entries ps, b.length < 2 ^ 64 := fun b hb =>
        lt_of_le_of_lt (mem_write_repeated_items_length hb) hlen
      have hkv : ∀ e ∈ ps, (encode_untagged e.1).length < 2 ^ 64 ∧
          (encode_untagged e.2).length < 2 ^ 64 := by
        intro e he
        have hentry := hbound _ (hmem_entry e he)
        exact ⟨lt_of_le_of_lt (write_dictionary_entry_key_le _ _) hentry,
          lt_of_le_of_lt (write_dictionary_entry_value_le _ _) hentry⟩
      have hskt : sizeOf kt ≤ N := by
        have : sizeOf (Ty.dictionary kt vt) = 1 + sizeOf kt + sizeOf vt := by simp
        have := ty_sizeOf_pos vt
        omega
      have hsvt : sizeOf vt ≤ N := by
        have : sizeOf (Ty.dictionary kt vt) = 1 + sizeOf kt + sizeOf vt := by simp
        have := ty_sizeOf_pos kt
        omega
      have helem : ∀ e ∈ ps, decode_untagged kt (encode_untagged e.1) = .ok e.1 ∧
          decode_untagged vt (encode_untagged e.2) = .ok e.2 := by
        intro e he
        have hb := hkv e he
        constructor
        · exact ihN kt hskt e.1 (has_ty_entries_mem hty.1 he).1 hb.1
        · exact ihN vt hsvt e.2 (has_ty_entries_mem hty.1 he).2 hb.2
      simp only [decode_untagged, parse_dictionary_message,
        parse_repeated_items_write _ hbound, mapM_parse_encode_entries ps hkv,
        decode_map_entries_of_elems kt vt ps [] helem
          (by simpa using pairwise_distinct_keys_sound hty.2)]
      simp

/-- **C1.** Decoding the untagged encoding of any well-typed value of a
supported type yields the value back.  The hypothesis
`(encode_untagged v).length < 2 ^ 64` is the Rust `usize` representability
of the encoded buffer.  For sets and dictionaries the decoded value is the
very same element (resp. entry) list, which in particular has the same
underlying multiset. -/
theorem codec_round_trip (t : Ty) (v : Val) (hty : has_ty v t = true)
    (hlen : (encode_untagged v).length < 2 ^ 64) :
    decode_untagged t (encode_untagged v) = .ok v :=
  decode_encode_untagged_main (sizeOf t) t le_rfl v hty hlen

/-- **C1 witness.** A concrete round trip through the list codec. -/
theorem codec_round_trip_witness :
    decode_untagged (Ty.list Ty.uint64)
      (encode_untagged (Val.list [Val.uint64 5, Val.uint64 300])) =
      .ok (Val.list [Val.uint64 5, Val.uint64 300]) :=
  codec_round_trip _ _ (by decide) (by
    simp [encode_untagged, encode_items, write_repeated_items, write_len_field,
      write_raw_varint64, write_len_delimited])

/-- **C3.** `rpc_enum!` discipline for an enumeration of `n` declared
variants (discriminants `0..n-1`): (1) every declared variant round-trips;
(2) any in-range `i32` outside the declared tag set decodes to the
`Encoding` error `"invalid enum variant"` (never silently to a variant);
(3) no variant decodes to a different variant. -/
theorem enum_discipline (n : Nat) (hn : n ≤ 2 ^ 31) :
    (∀ i : Nat, i < n →
      decode_untagged (.enumeration n) (encode_untagged (.enumeration i)) =
        .ok (.enumeration i)) ∧
    (∀ j : Int, -2 ^ 31 ≤ j → j < 2 ^ 31 → (j < 0 ∨ (n : Int) ≤ j) →
      decode_untagged (.enumeration n) (write_sint32_no_tag j) =
        .error (.encoding "invalid enum variant")) ∧
    (∀ i i' : Nat, i < n →
      decode_untagged (.enumeration n) (encode_untagged (.enumeration i)) =
        .ok (.enumeration i') → i' = i) := by
  have hround : ∀ i : Nat, i < n →
      decode_untagged (.enumeration n) (encode_untagged (.enumeration i)) =
        .ok (.enumeration i) := by
    intro i hi
    have hlow : (-2 ^ 31 : Int) ≤ (i : Int) := le_trans (by norm_num) (Int.natCast_nonneg i)
    have hhigh : (i : Int) < 2 ^ 31 := by
      have : (i : Int) < (2 ^ 31 : Nat) := by exact_mod_cast lt_of_lt_of_le hi hn
      simpa using this
    simp only [decode_untagged, encode_untagged, read_write_sint32 (i : Int) hlow hhigh]
    rw [if_pos ⟨by positivity, by exact_mod_cast hi⟩]
    simp
  refine ⟨hround, ?_, ?_⟩
  · intro j hjl hjh hout
    simp only [decode_untagged, read_write_sint32 j hjl hjh]
    rw [if_neg (by
      rintro ⟨h0, hlt⟩
      rcases hout with hneg | hge
      · omega
      · omega)]
  · intro i i' hi hdec
    rw [hround i hi] at hdec
    simpa using hdec.symm

/-- **C3 witness.** Variant 2 of a 3-variant enumeration round-trips, and
the out-of-range tag 5 yields the `Encoding` error. -/
theorem enum_discipline_witness :
    decode_untagged (.enumeration 3) (encode_untagged (.enumeration 2)) =
      .ok (.enumeration 2) ∧
    decode_untagged (.enumeration 3) (write_sint32_no_tag 5) =
      .error (.encoding "invalid enum variant") :=
  ⟨(enum_discipline 3 (by norm_num)).1 2 (by norm_num),
   (enum_discipline 3 (by norm_num)).2.1 5 (by norm_num) (by norm_num)
     (Or.inr (by norm_num))⟩

/-! ## Response handling (`FromResponse`), arguments (`ToArgument`) -/

/-- `ProcedureResult { error?, value }` (the error payload is abstracted
to its message). -/
structure PResult where
  error : Option String
  value : List Nat
deriving DecidableEq, Repr

/-- `Response { error?, results }`. -/
structure Response where
  error : Option String
  results : List PResult
deriving DecidableEq, Repr

/-- `impl<T: DecodeUntagged> FromResponse for T`: decode
`response.results[0].value`, consulting neither `response.error` nor
`results[0].error`.  `none` models the Rust index panic when `results`
is empty (`&response.results[0]` on an empty vector). -/
def from_response (t : Ty) (r : Response) : Option (Except RpcErr Val) :=
  r.results.head?.map fun r0 => decode_untagged t r0.value

/-- `impl FromResponse for ()`: always `Ok(())`. -/
def from_response_unit (_ : Response) : Option (Except RpcErr Unit) :=
  some (.ok ())

/-- **C2 counterexample.** A response whose `error` field and whose first
result's `error` field are both set is decoded successfully: the invoker
returns the decoded value, not a `Protocol` error carrying the server
message (`RpcErr` has no such variant at all). -/
theorem server_error_not_propagated :
    from_response Ty.bool
      { error := some "server failure",
        results := [{ error := some "procedure failed", value := write_bool_no_tag true }] } =
      some (.ok (.bool true)) := by
  simp [from_response, decode_untagged, read_write_bool]

/-- **C2 (amended).** The generated invoker ignores both `Response.error`
and `ProcedureResult.error`: whenever `results` is non-empty it returns
exactly the decode of `results[0].value`, for every value of the error
fields. -/
theorem from_response_ignores_errors (t : Ty) (err : Option String)
    (r0 : PResult) (rest : List PResult) :
    from_response t { error := err, results := r0 :: rest } =
      some (decode_untagged t r0.value) := rfl

/-- **C10.** For a decode-typed (non-unit) return, the invoker
unconditionally indexes `results[0]`: an empty `results` list panics
(modelled `none`) instead of returning an error value, and a non-empty one
is decoded regardless of everything else. -/
theorem from_response_empty_results_panics (t : Ty) (err : Option String) :
    from_response t { error := err, results := [] } = none ∧
    (∀ r0 rest, from_response t { error := err, results := r0 :: rest } =
      some (decode_untagged t r0.value)) :=
  ⟨rfl, fun _ _ => rfl⟩

/-- `Argument { position, value }`. -/
structure Argument where
  position : Nat
  value : List Nat
deriving DecidableEq, Repr

/-- `impl<T: EncodeUntagged> ToArgument for T`:
`Ok(Argument { position, value: self.encode_untagged()? })`.  The model's
encoders are total, as the source encoders only fail on I/O into a `Vec`,
which cannot happen. -/
def to_argument (v : Val) (pos : Nat) : Except RpcErr Argument :=
  .ok { position := pos, value := encode_untagged v }

/-- **C4 counterexample.** Encoding the null class handle (id 0) as an
argument succeeds, producing the varint encoding of 0 — it does not fail
with an `Encoding` error. -/
theorem null_handle_encodes :
    to_argument (.object 0) 1 = .ok { position := 1, value := [0] } := by
  simp [to_argument, encode_untagged, write_raw_varint64]

/-- **C4 (amended).** `rpc_object!`'s encoder writes the handle's id as a
`u64` unconditionally; id 0 (the null handle) is encoded like any other id
and no encoding error is ever raised by `to_argument` on a class handle. -/
theorem object_to_argument (id pos : Nat) :
    to_argument (.object id) pos =
      .ok { position := pos, value := write_raw_varint64 id } := rfl

/-! ## The stream registry (`StreamWrangler`, `src/stream.rs`)

The registry is a map from stream id to an entry holding the latest
`ProcedureResult` and a `Condvar`.  An entry is modelled as the cell value
plus the ordered list of thread ids currently blocked in `wait(id)` on its
condition variable; `Condvar::notify_one` wakes the first of them. -/

structure StreamEntry where
  value : PResult
  waiters : List Nat
deriving DecidableEq, Repr

/-- `ProcedureResult::default()`: no error, empty value bytes. -/
def default_presult : PResult := { error := none, value := [] }

structure StreamWrangler where
  streams : List (Nat × StreamEntry)
deriving DecidableEq, Repr

def find_entry (w : StreamWrangler) (id : Nat) : Option StreamEntry :=
  (w.streams.find? (fun e => e.1 == id)).map Prod.snd

def set_entry : List (Nat × StreamEntry) → Nat → StreamEntry → List (Nat × StreamEntry)
  | [], id, e => [(id, e)]
  | (id', e') :: rest, id, e =>
    if id' = id then (id, e) :: rest else (id', e') :: set_entry rest id e

/-- `StreamWrangler::insert`: `map.entry(id).or_insert_with(Default)`,
overwrite the cell value under the entry's lock, then
`Condvar::notify_one`.  Returns the new registry and the woken waiters:
the first blocked waiter if any — not all of them. -/
def wrangler_insert (w : StreamWrangler) (id : Nat) (r : PResult) :
    StreamWrangler × List Nat :=
  let waiters := (find_entry w id).elim [] StreamEntry.waiters
  (⟨set_entry w.streams id { value := r, waiters := waiters.drop 1 }⟩, waiters.take 1)

/-- `StreamWrangler::wait`: ensure the entry exists and block the calling
thread `tid` on the entry's condition variable. -/
def wrangler_wait (w : StreamWrangler) (id : Nat) (tid : Nat) : StreamWrangler :=
  match find_entry w id with
  | some e => ⟨set_entry w.streams id { e with waiters := e.waiters ++ [tid] }⟩
  | none =>
    ⟨w.streams ++ [(id, { value := default_presult, waiters := [tid] })]⟩

/-- `StreamWrangler::remove`: drop the entry. -/
def wrangler_remove (w : StreamWrangler) (id : Nat) : StreamWrangler :=
  ⟨w.streams.filter (fun e => e.1 != id)⟩

/-- `StreamWrangler::get::<T>`: `map.entry(id).or_insert_with(Default)`,
then decode the entry's cell bytes as `T`.  An id never inserted gets the
default entry, whose value bytes are empty. -/
def wrangler_get (t : Ty) (w : StreamWrangler) (id : Nat) :
    StreamWrangler × Except RpcErr Val :=
  match find_entry w id with
  | some e => (w, decode_untagged t e.value.value)
  | none =>
    (⟨w.streams ++ [(id, { value := default_presult, waiters := [] })]⟩,
      decode_untagged t default_presult.value)

theorem find_set_entry (l : List (Nat × StreamEntry)) (id : Nat) (e : StreamEntry) :
    find_entry ⟨set_entry l id e⟩ id = some e := by
  induction l with
  | nil => simp [find_entry, set_entry, List.find?]
  | cons p rest ih =>
    obtain ⟨id', e'⟩ := p
    simp only [set_entry]
    by_cases h : id' = id
    · simp [find_entry, h, List.find?]
    · rw [if_neg h]
      show find_entry ⟨(id', e') :: set_entry rest id e⟩ id = some e
      unfold find_entry
      rw [List.find?_cons_of_neg _ (by simpa using h)]
      exact ih

/-- **C5 counterexample.** `get::<Vec<u64>>` on an id for which no value
has been stored yet returns `Ok(vec![])` — the empty default cell decodes
to an empty list, not to an encoding error as the claim states. -/
theorem get_unfilled_list_succeeds :
    (wrangler_get (Ty.list Ty.uint64) ⟨[]⟩ 3).2 = .ok (.list []) := by
  have h0 : decode_untagged (Ty.list Ty.uint64) [] = .ok (.list []) := by
    have h1 : parse_repeated_items ([] : List Nat) = .ok [] := by
      simp [parse_repeated_items, parse_len_fields_nil, Except.map]
    simp [wrangler_get, find_entry, decode_untagged, h1, decode_list_items, Except.map]
  simpa [wrangler_get, find_entry, default_presult] using h0

/-- **C5 (amended).** `get` returns the decode of the current cell bytes,
where an id with no stored value reads the default (empty) cell: for a
scalar type such as `u64` the empty buffer fails to decode (truncated
varint), but for a message-backed type such as a list it decodes
successfully to the empty container. -/
theorem wrangler_get_characterisation :
    (∀ (t : Ty) (w : StreamWrangler) (id : Nat),
      (wrangler_get t w id).2 =
        decode_untagged t ((find_entry w id).elim [] (fun e => e.value.value))) ∧
    (∀ (w : StreamWrangler) (id : Nat), find_entry w id = none →
      (wrangler_get Ty.uint64 w id).2 = .error (.protobuf "unexpected eof")) ∧
    (∀ (w : StreamWrangler) (id : Nat) (t' : Ty), find_entry w id = none →
      (wrangler_get (Ty.list t') w id).2 = .ok (.list [])) := by
  have hchar : ∀ (t : Ty) (w : StreamWrangler) (id : Nat),
      (wrangler_get t w id).2 =
        decode_untagged t ((find_entry w id).elim [] (fun e => e.value.value)) := by
    intro t w id
    unfold wrangler_get
    cases h : find_entry w id <;> simp [h, default_presult]
  refine ⟨hchar, ?_, ?_⟩
  · intro w id h
    rw [hchar, h]
    simp [decode_untagged, read_uint64, read_raw_varint64, read_raw_varint64_loop, Except.map]
  · intro w id t' h
    rw [hchar, h]
    have h1 : parse_repeated_items ([] : List Nat) = .ok [] := by
      simp [parse_repeated_items, parse_len_fields_nil, Except.map]
    simp [decode_untagged, h1, decode_list_items, Except.map]

/-- **C5 witness.** Both behaviours at a fresh id: `u64` decoding fails,
list decoding yields the empty list. -/
theorem wrangler_get_characterisation_witness :
    (wrangler_get Ty.uint64 ⟨[]⟩ 7).2 = .error (.protobuf "unexpected eof") ∧
    (wrangler_get (Ty.list Ty.bool) ⟨[]⟩ 7).2 = .ok (.list []) :=
  ⟨wrangler_get_characterisation.2.1 ⟨[]⟩ 7 (by simp [find_entry, List.find?]),
   wrangler_get_characterisation.2.2 ⟨[]⟩ 7 Ty.bool (by simp [find_entry, List.find?])⟩

/-- **C9 counterexample.** With two threads blocked in `wait(5)`,
`insert(5, _)` wakes only the first: `notify_one`, not a broadcast to all
waiters. -/
theorem insert_notifies_only_one :
    (wrangler_insert
      ⟨[(5, { value := default_presult, waiters := [1, 2] })]⟩ 5 default_presult).2 = [1] ∧
    (wrangler_insert
      ⟨[(5, { value := default_presult, waiters := [1, 2] })]⟩ 5 default_presult).2 ≠ [1, 2] := by
  constructor <;> decide

/-- **C9 (amended).** `insert(id, result)` ensures the registry entry
exists and replaces its cell value with `result`, but notifies at most one
blocked waiter (`Condvar::notify_one`): the first waiter if any is woken,
the remaining waiters stay blocked. -/
theorem wrangler_insert_characterisation (w : StreamWrangler) (id : Nat) (r : PResult) :
    find_entry (wrangler_insert w id r).1 id =
      some { value := r, waiters := ((find_entry w id).elim [] StreamEntry.waiters).drop 1 } ∧
    (wrangler_insert w id r).2 = ((find_entry w id).elim [] StreamEntry.waiters).take 1 := by
  unfold wrangler_insert
  exact ⟨find_set_entry w.streams id _, rfl⟩

/-! ## The background STREAM reader (`src/client.rs`)

`Client::new` spawns `thread::spawn(move || loop { bg_client.update_streams().ok(); })`:
an unconditional infinite loop whose body receives one framed
`StreamUpdate` and inserts its results, with the `Result` discarded by
`.ok()`.  The socket is modelled by the trace of `recv` outcomes the loop
consumes. -/

/-- Insert the results of one `StreamUpdate`
(`for result in update.results { streams.insert(id, result.ok_or(Client)?) }`):
a missing `result` aborts with `Client`, keeping earlier insertions. -/
def apply_stream_results :
    List (Nat × Option PResult) → StreamWrangler → StreamWrangler × Option RpcErr
  | [], w => (w, none)
  | (id, some r) :: rest, w => apply_stream_results rest (wrangler_insert w id r).1
  | (_, none) :: _, w => (w, some .client)

/-- `Client::update_streams`: one `recv::<StreamUpdate>` from the STREAM
socket, then the insertions; a receive error is returned to the caller. -/
def update_streams (msg : Except RpcErr (List (Nat × Option PResult)))
    (w : StreamWrangler) : StreamWrangler × Option RpcErr :=
  match msg with
  | .error e => (w, some e)
  | .ok results => apply_stream_results results w

/-- The spawned reader loop `loop { bg_client.update_streams().ok(); }`
over a trace of receive outcomes: every outcome is processed and the
error of each iteration is discarded — the loop never stops on a read
error. -/
def reader_loop :
    List (Except RpcErr (List (Nat × Option PResult))) → StreamWrangler → StreamWrangler
  | [], w => w
  | msg :: msgs, w => reader_loop msgs (update_streams msg w).1

/-- **C8.** The reader loop keeps reading after a read error: a trace with
a connection error followed by a further `StreamUpdate` still applies the
later update — the error is swallowed by `.ok()` and the loop continues,
the client is not torn down. -/
theorem reader_loop_continues_after_error :
    find_entry
      (reader_loop
        [.error .connection, .ok [(7, some { error := none, value := [1] })]] ⟨[]⟩) 7 =
      some { value := { error := none, value := [1] }, waiters := [] } := by
  decide

/-! ## The code generator (`krpc_build/mod.rs`)

Identifier handling models the `convert_case` crate with its default
boundaries (underscore / hyphen / space delimiters, lower→upper,
letter↔digit, and acronym upper-upper-lower transitions) restricted to
ASCII, which is what kRPC procedure names consist of.
`s.is_case(Case::Lower)` is `s.to_case(Case::Lower) == s` and
`Case::Lower` joins lowercased words with spaces; `Case::Snake` joins them
with underscores. -/

def is_ascii_upper (c : Char) : Bool := 'A' ≤ c && c ≤ 'Z'
def is_ascii_lower (c : Char) : Bool := 'a' ≤ c && c ≤ 'z'
def is_ascii_digit (c : Char) : Bool := '0' ≤ c && c ≤ '9'
def is_delim (c : Char) : Bool := c == '_' || c == '-' || c == ' '

def ascii_to_lower (c : Char) : Char :=
  if is_ascii_upper c then Char.ofNat (c.toNat + 32) else c

/-- Is there a word boundary between `c` and the following `d` (with `dd`
the character after `d`)? -/
def case_boundary (c d : Char) (dd : Option Char) : Bool :=
  (is_ascii_lower c && is_ascii_upper d) ||
  (is_ascii_upper c && is_ascii_upper d && dd.elim false is_ascii_lower) ||
  (is_ascii_lower c && is_ascii_digit d) ||
  (is_ascii_upper c && is_ascii_digit d) ||
  (is_ascii_digit c && is_ascii_lower d) ||
  (is_ascii_digit c && is_ascii_upper d)

def split_words_go : List Char → List Char → List (List Char)
  | [], cur => if cur.isEmpty then [] else [cur]
  | c :: rest, cur =>
    if is_delim c then
      (if cur.isEmpty then [] else [cur]) ++ split_words_go rest []
    else
      match rest with
      | [] => [cur ++ [c]]
      | d :: rest2 =>
        if is_delim d then split_words_go rest (cur ++ [c])
        else if case_boundary c d rest2.head? then
          (cur ++ [c]) :: split_words_go rest []
        else split_words_go rest (cur ++ [c])

def split_words (l : List Char) : List (List Char) := split_words_go l []

/-- `convert_case` `to_case(Case::Snake)`. -/
def to_case_snake (l : List Char) : List Char :=
  List.intercalate ['_'] ((split_words l).map (List.map ascii_to_lower))

/-- `convert_case` `to_case(Case::Lower)`. -/
def to_case_lower (l : List Char) : List Char :=
  List.intercalate [' '] ((split_words l).map (List.map ascii_to_lower))

/-- `convert_case` `is_case(Case::Lower)`. -/
def is_case_lower (l : List Char) : Bool := to_case_lower l == l

/-- Rust `str::split('_')`. -/
def split_on_underscore : List Char → List (List Char)
  | [] => [[]]
  | c :: rest =>
    let r := split_on_underscore rest
    if c = '_' then [] :: r
    else
      match r with
      | w :: ws => (c :: w) :: ws
      | [] => [[c]]

/-- `get_struct`: the receiver class, when the procedure name's first
`_`-segment is not in lower case and further segments exist. -/
def get_struct (tokens : List (List Char)) : Option (List Char) :=
  tokens.head?.bind fun s =>
    if tokens.length > 1 && !(is_case_lower s) then some s else none

/-- `get_fn_name`: drop the first segment when a receiver class was
found, re-join on `_`, snake-case. -/
def get_fn_name (tokens : List (List Char)) (cls : Option (List Char)) : List Char :=
  to_case_snake (List.intercalate ['_']
    (match cls with
     | some _ => tokens.tail
     | none => tokens))

/-- The claim's receiver condition as the spec words it: the first segment
starts with an uppercase letter, and at least one further segment
exists. -/
def spec_receiver_condition (name : List Char) : Bool :=
  match split_on_underscore name with
  | s :: _ :: _ => s.head?.elim false is_ascii_upper
  | _ => false

/-- **C6 counterexample.** The procedure name `getFoo_bar` is emitted as a
method on a class `getFoo` (its first segment is camel-case, hence not
`Case::Lower`), although that segment does not start with an uppercase
letter — refuting the claimed "if and only if". -/
theorem receiver_inference_counterexample :
    get_struct (split_on_underscore "getFoo_bar".data) = some "getFoo".data ∧
    spec_receiver_condition "getFoo_bar".data = false := by
  constructor <;> decide

/-- **C6 (amended).** Splitting the name on `_`: the procedure is emitted
on a receiver class exactly when at least one further segment exists and
the first segment is not entirely lower-case under `convert_case`'s
`Case::Lower` (uppercase-initial segments qualify, but so do e.g.
camel-case ones); the receiver is that first segment, the method name is
the remaining segments re-joined and lower-snake-cased; otherwise the
full name is emitted on the service struct, lower-snake-cased. -/
theorem receiver_inference (name : List Char) (s : List Char) (ss : List (List Char))
    (hsplit : split_on_underscore name = s :: ss) :
    get_struct (split_on_underscore name) =
      (if ss ≠ [] ∧ is_case_lower s = false then some s else none) ∧
    get_fn_name (split_on_underscore name) (get_struct (split_on_underscore name)) =
      (if ss ≠ [] ∧ is_case_lower s = false then
        to_case_snake (List.intercalate ['_'] ss)
      else to_case_snake (List.intercalate ['_'] (s :: ss))) := by
  rw [hsplit]
  by_cases hss : ss = []
  · subst hss
    simp [get_struct, get_fn_name]
  · by_cases hlow : is_case_lower s
    · rw [if_neg (by simp [hlow]), if_neg (by simp [hlow])]
      have hcls : get_struct (s :: ss) = none := by
        simp [get_struct, hlow]
      rw [hcls]
      simp [get_fn_name]
    · rw [if_pos ⟨hss, by simpa using hlow⟩, if_pos ⟨hss, by simpa using hlow⟩]
      have hcls : get_struct (s :: ss) = some s := by
        simp [get_struct, hlow, hss]
      rw [hcls]
      simp [get_fn_name]

/-- **C6 witness.** `Vessel_get_Name` becomes the method `get_name` on the
class `Vessel`. -/
theorem receiver_inference_witness :
    get_struct (split_on_underscore "Vessel_get_Name".data) = some "Vessel".data ∧
    get_fn_name (split_on_underscore "Vessel_get_Name".data)
      (get_struct (split_on_underscore "Vessel_get_Name".data)) = "get_name".data := by
  have h := receiver_inference "Vessel_get_Name".data "Vessel".data
    ["get".data, "Name".data] (by decide)
  constructor
  · rw [h.1]
    decide
  · rw [h.2]
    decide

/-- `rewrite_keywords`: only `type` is escaped. -/
def rewrite_keywords (s : List Char) : List Char :=
  if s = "type".data then "r#type".data else s

/-- Rust `str::eq_ignore_ascii_case`. -/
def eq_ignore_ascii_case (a b : List Char) : Bool :=
  a.map ascii_to_lower == b.map ascii_to_lower

/-- `Parameters::from_json`'s receiver test: the parameter name,
snake-cased and keyword-escaped, equals `this` case-insensitively. -/
def is_this_param (raw_name : List Char) : Bool :=
  eq_ignore_ascii_case (rewrite_keywords (to_case_snake raw_name)) "this".data

/-- The `vec![...]` of arguments the generated call-builder produces
(`Parameters::from_json`): parameter `i` contributes
`<expr>.to_argument(i)`, where a parameter named `this` is supplied from
the method receiver (`rpc_object!` encodes its `u64` id) and every other
parameter consumes the next explicit argument.  `rid` is the receiver's
object id; `vals` the untagged encodings of the explicit arguments in
declaration order. -/
def build_arguments : List (List Char) → Nat → Nat → List (List Nat) → List Argument
  | [], _, _, _ => []
  | p :: ps, pos, rid, vals =>
    if is_this_param p then
      { position := pos, value := write_raw_varint64 rid } ::
        build_arguments ps (pos + 1) rid vals
    else
      { position := pos, value := vals.headD [] } ::
        build_arguments ps (pos + 1) rid vals.tail

theorem build_arguments_length (params : List (List Char)) :
    ∀ (pos rid : Nat) (vals : List (List Nat)),
    (build_arguments params pos rid vals).length = params.length := by
  induction params with
  | nil => intro pos rid vals; rfl
  | cons p ps ih =>
    intro pos rid vals
    simp only [build_arguments]
    by_cases hp : is_this_param p <;> simp [hp, ih]

theorem build_arguments_get (params : List (List Char)) :
    ∀ (pos rid : Nat) (vals : List (List Nat)) (i : Nat) (p : List Char),
    params.get? i = some p →
    (build_arguments params pos rid vals).get? i = some
      { position := pos + i,
        value := if is_this_param p then write_raw_varint64 rid
          else (vals.drop ((params.take i).filter
            (fun q => !(is_this_param q))).length).headD [] } := by
  induction params with
  | nil => intro pos rid vals i p hp; simp at hp
  | cons q ps ih =>
    intro pos rid vals i p hp
    cases i with
    | zero =>
      simp only [List.get?_cons_zero, Option.some.injEq] at hp
      subst hp
      by_cases hq : is_this_param q <;>
        simp [build_arguments, hq]
    | succ i =>
      simp only [List.get?_cons_succ] at hp
      by_cases hq : is_this_param q
      · simp only [build_arguments, if_pos hq, List.get?_cons_succ]
        rw [ih (pos + 1) rid vals i p hp]
        simp only [List.take_succ_cons, List.filter_cons]
        rw [show (!(is_this_param q)) = false from by simp [hq]]
        rw [if_neg Bool.false_ne_true]
        congr 2
        omega
      · simp only [build_arguments, if_neg hq, List.get?_cons_succ]
        rw [ih (pos + 1) rid vals.tail i p hp]
        simp only [List.take_succ_cons, List.filter_cons]
        rw [show (!(is_this_param q)) = true from by simp [hq]]
        rw [if_pos rfl]
        have hdrop : vals.tail.drop
            (((ps.take i).filter (fun r => !(is_this_param r))).length) =
            vals.drop
              ((q :: (ps.take i).filter (fun r => !(is_this_param r))).length) := by
          rw [← List.drop_one, List.drop_drop, List.length_cons]
          congr 1
          omega
        rw [hdrop]
        congr 2
        omega

/-- **C7.** In a generated call the argument vector has one argument per
declared parameter, and the argument at declared index `i` carries
`position = i`; its value is the untagged encoding of the corresponding
explicit argument, except that a parameter named `this` is supplied from
the method receiver as the `u64`-encoded object id without consuming an
explicit argument. -/
theorem argument_positions (params : List (List Char)) (rid : Nat)
    (vals : List (List Nat)) (i : Nat) (p : List Char)
    (hp : params.get? i = some p) :
    (build_arguments params 0 rid vals).length = params.length ∧
    (build_arguments params 0 rid vals).get? i = some
      { position := i,
        value := if is_this_param p then write_raw_varint64 rid
          else (vals.drop ((params.take i).filter
            (fun q => !(is_this_param q))).length).headD [] } := by
  refine ⟨build_arguments_length params 0 rid vals, ?_⟩
  simpa using build_arguments_get params 0 rid vals i p hp

/-- **C7 witness.** A `this` parameter at declared position 0 yields the
receiver's encoded id at position 0; the explicit argument lands at
position 1. -/
theorem argument_positions_witness :
    (build_arguments ["this".data, "x".data] 0 9 [[42]]).get? 0 =
      some { position := 0, value := write_raw_varint64 9 } := by
  have h := argument_positions ["this".data, "x".data] 9 [[42]] 0 "this".data (by decide)
  rw [h.2, if_pos (show is_this_param "this".data = true from by decide)]
